import Mathlib

/-!
Verification of the meeting-minutes recording core: the Transcript Stream
Reconciler (`processBufferedTranscripts` and the `transcript-update` listener
in `src/frontend/src/app/settings/page.tsx`), the Recording State Synchronizer
(`RecordingStateContext.tsx`), and the Stop/Flush Protocol
(`handleRecordingStop2` in `settings/page.tsx`), shallowly embedded in Lean.

Machine numbers are modelled as `Nat` (timestamps, sequence ids, counters)
and `Int` where the source can compute a negative difference (segment age).
The JavaScript `Map` that backs the reconciliation buffer is modelled as an
insertion-ordered association list `List (Nat × Transcript)`; `Map.set` on a
fresh key appends, `Map.delete` filters, and `entries()` iterates in list
order, exactly mirroring JS `Map` semantics for the operations the code uses.
`Array.prototype.sort` with the two-level comparator is modelled as a stable
insertion sort with respect to the same lexicographic key.
-/

namespace MeetingMinutes

/-- The `transcript-update` event payload (`TranscriptUpdate` in
`settings/page.tsx`): fields read by the main listener. -/
structure TranscriptUpdate where
  text : String
  timestamp : String
  sequence_id : Nat
  chunk_start_time : Option Nat
  is_partial : Bool
  confidence : Option Nat
  audio_start_time : Option Nat
  audio_end_time : Option Nat
  duration : Option Nat
deriving DecidableEq, Repr

/-- The frontend `Transcript` record built by the main listener.  The source
sets `id = Date.now() + "-" + transcriptCounter++`; we keep the two halves
as `idTime` and `idCounter` (the code later recovers `idTime` via
`parseInt(transcript.id.split('-')[0])`). -/
structure Transcript where
  idTime : Nat
  idCounter : Nat
  text : String
  timestamp : String
  sequence_id : Nat
  chunk_start_time : Option Nat
  is_partial : Bool
  confidence : Option Nat
  audio_start_time : Option Nat
  audio_end_time : Option Nat
  duration : Option Nat
deriving DecidableEq, Repr

/-- `(a.chunk_start_time || 0)` in the sort comparators: a missing
`chunk_start_time` compares as `0`. -/
def chunkKey (t : Transcript) : Nat := t.chunk_start_time.getD 0

/-- The ordering used by every sort in the reconciler: ascending
`chunk_start_time` (missing treated as 0), ties broken by ascending
`sequence_id`. -/
def transcriptLe (a b : Transcript) : Prop :=
  chunkKey a < chunkKey b ∨ (chunkKey a = chunkKey b ∧ a.sequence_id ≤ b.sequence_id)

instance : DecidableRel transcriptLe := fun a b => by
  unfold transcriptLe; exact inferInstance

instance : IsTotal Transcript transcriptLe where
  total a b := by
    unfold transcriptLe
    rcases Nat.lt_trichotomy (chunkKey a) (chunkKey b) with h | h | h
    · exact Or.inl (Or.inl h)
    · rcases Nat.le_total a.sequence_id b.sequence_id with h2 | h2
      · exact Or.inl (Or.inr ⟨h, h2⟩)
      · exact Or.inr (Or.inr ⟨h.symm, h2⟩)
    · exact Or.inr (Or.inl h)

instance : IsTrans Transcript transcriptLe where
  trans a b c hab hbc := by
    unfold transcriptLe at *
    rcases hab with h1 | ⟨h1, h1'⟩ <;> rcases hbc with h2 | ⟨h2, h2'⟩
    · exact Or.inl (h1.trans h2)
    · exact Or.inl (h2 ▸ h1)
    · exact Or.inl (h1 ▸ h2)
    · exact Or.inr ⟨h1.trans h2, h1'.trans h2'⟩

/-- The `sortTranscripts` helper inside `processBufferedTranscripts`:
`transcripts.sort(chunk_start_time then sequence_id)`, modelled as a stable
sort by the same key. -/
def sortTranscripts (ts : List Transcript) : List Transcript :=
  ts.insertionSort transcriptLe

/-- `transcriptBuffer.has(s)` on the association-list model of the JS `Map`. -/
def bufHas (buf : List (Nat × Transcript)) (s : Nat) : Bool :=
  buf.any (fun p => p.1 == s)

/-- `transcriptBuffer.get(s)`. -/
def bufGet (buf : List (Nat × Transcript)) (s : Nat) : Option Transcript :=
  (buf.find? (fun p => p.1 == s)).map Prod.snd

/-- `transcriptBuffer.delete(s)`. -/
def bufDelete (buf : List (Nat × Transcript)) (s : Nat) : List (Nat × Transcript) :=
  buf.filter (fun p => p.1 != s)

/-- Reconciler state captured by the closure in the main-listener effect:
`transcriptCounter`, `transcriptBuffer`, `lastProcessedSequence`, and the
React `transcripts` list (the emitted output updated via `setTranscripts`). -/
structure ReconcilerState where
  transcriptCounter : Nat
  transcriptBuffer : List (Nat × Transcript)
  lastProcessedSequence : Nat
  transcripts : List Transcript
deriving DecidableEq, Repr

/-- Initial reconciler state (`transcriptCounter = 0`, empty buffer,
`lastProcessedSequence = 0`, no emitted transcripts). -/
def initialReconcilerState : ReconcilerState :=
  { transcriptCounter := 0, transcriptBuffer := [], lastProcessedSequence := 0,
    transcripts := [] }

/-- The sequence ids currently emitted to the output. -/
def outIds (st : ReconcilerState) : List Nat :=
  st.transcripts.map (·.sequence_id)

/-- The sequence ids currently buffered. -/
def bufKeys (st : ReconcilerState) : List Nat :=
  st.transcriptBuffer.map Prod.fst

/-- The `Transcript` object the main listener constructs from an event
payload (`newTranscript` in the source). -/
def mkTranscript (now counter : Nat) (p : TranscriptUpdate) : Transcript :=
  { idTime := now, idCounter := counter, text := p.text, timestamp := p.timestamp,
    sequence_id := p.sequence_id, chunk_start_time := p.chunk_start_time,
    is_partial := TranscriptUpdate.is_partial p, confidence := p.confidence,
    audio_start_time := p.audio_start_time, audio_end_time := p.audio_end_time,
    duration := p.duration }

/-- The body of the `transcript-update` listener: duplicate `sequence_id`s
already in the buffer are skipped; otherwise the new transcript is inserted
into the buffer (and the debounce timer is rescheduled — timing is modelled
by explicit `reduce` events in a trace). -/
def onTranscriptUpdate (now : Nat) (p : TranscriptUpdate) (st : ReconcilerState) :
    ReconcilerState :=
  if bufHas st.transcriptBuffer p.sequence_id then st
  else
    { st with
      transcriptCounter := st.transcriptCounter + 1,
      transcriptBuffer :=
        st.transcriptBuffer ++ [(p.sequence_id, mkTranscript now st.transcriptCounter p)] }

/-- Result of the sequential-drain `while` loop: the emitted transcripts in
drain order, the remaining buffer, and the advanced watermark. -/
structure DrainResult where
  emitted : List Transcript
  buf : List (Nat × Transcript)
  last : Nat
deriving DecidableEq, Repr

/-- The sequential-drain loop, with explicit fuel (each successful iteration
removes an entry from the buffer, so `fuel = buf.length` never runs out):
`while (transcriptBuffer.has(lastProcessedSequence + 1)) { emit; delete;
lastProcessedSequence++ }`. -/
def sequentialDrainAux : Nat → List (Nat × Transcript) → Nat → DrainResult
  | 0, buf, lastSeq => { emitted := [], buf := buf, last := lastSeq }
  | fuel + 1, buf, lastSeq =>
    match bufGet buf (lastSeq + 1) with
    | none => { emitted := [], buf := buf, last := lastSeq }
    | some t =>
      let r := sequentialDrainAux fuel (bufDelete buf (lastSeq + 1)) (lastSeq + 1)
      { r with emitted := t :: r.emitted }

/-- Sequential drain of the buffer starting from the current watermark. -/
def sequentialDrain (buf : List (Nat × Transcript)) (lastSeq : Nat) : DrainResult :=
  sequentialDrainAux buf.length buf lastSeq

/-- `staleThreshold` — 100 ms safety net. -/
def staleThreshold : Int := 100

/-- `recentThreshold` — 0 ms: show immediately. -/
def recentThreshold : Int := 0

/-- Result of the `for (const [sequenceId, transcript] of
transcriptBuffer.entries())` partition loop: stale, recent and force-flush
tiers, plus the entries left in the buffer. -/
structure TierResult where
  stale : List Transcript
  recent : List Transcript
  forced : List Transcript
  remaining : List (Nat × Transcript)
deriving DecidableEq, Repr

/-- The partition loop of `processBufferedTranscripts`: in force-flush mode
every entry is drained into the forced tier; otherwise the entry's age
(`now - parseInt(transcript.id.split('-')[0])`) sends it to the stale tier
(`> 100 ms`), the recent tier (`>= 0 ms`), or leaves it buffered. -/
def drainTiers (forceFlush : Bool) (now : Nat) :
    List (Nat × Transcript) → TierResult
  | [] => { stale := [], recent := [], forced := [], remaining := [] }
  | (sid, t) :: rest =>
    let r := drainTiers forceFlush now rest
    if forceFlush then { r with forced := t :: r.forced }
    else
      let transcriptAge : Int := (now : Int) - (t.idTime : Int)
      if transcriptAge > staleThreshold then { r with stale := t :: r.stale }
      else if transcriptAge ≥ recentThreshold then { r with recent := t :: r.recent }
      else { r with remaining := (sid, t) :: r.remaining }

/-- The `setTranscripts(prev => ...)` updater: deduplicate the incoming batch
against the `sequence_id`s already emitted, and when anything new remains,
append it and re-sort the combined list by `(chunk_start_time, sequence_id)`. -/
def mergeTranscripts (prev allNew : List Transcript) : List Transcript :=
  let existingSequenceIds := prev.map (·.sequence_id)
  let uniqueNewTranscripts :=
    allNew.filter (fun t => !(existingSequenceIds.contains t.sequence_id))
  if uniqueNewTranscripts.isEmpty then prev
  else sortTranscripts (prev ++ uniqueNewTranscripts)

/-- `processBufferedTranscripts(forceFlush)`: sequential drain, tiered
age-based (or forced) drain of the remainder, per-tier sort, concatenation in
source order (sequential, recent, stale, forced), then the deduplicating
merge into the emitted output — which is only invoked when the batch is
non-empty. -/
def processBufferedTranscripts (forceFlush : Bool) (now : Nat)
    (st : ReconcilerState) : ReconcilerState :=
  let d := sequentialDrain st.transcriptBuffer st.lastProcessedSequence
  let tiers := drainTiers forceFlush now d.buf
  let allNewTranscripts :=
    d.emitted ++ sortTranscripts tiers.recent ++ sortTranscripts tiers.stale ++
      sortTranscripts tiers.forced
  { transcriptCounter := st.transcriptCounter
    transcriptBuffer := tiers.remaining
    lastProcessedSequence := d.last
    transcripts :=
      if allNewTranscripts.length > 0 then mergeTranscripts st.transcripts allNewTranscripts
      else st.transcripts }

/-- The `allNewTranscripts` batch a reduction pass assembles (same
computation as inside `processBufferedTranscripts`, named for reasoning):
sequential drain output, then the sorted recent, stale and forced tiers. -/
def reduceBatch (forceFlush : Bool) (now : Nat) (st : ReconcilerState) :
    List Transcript :=
  let d := sequentialDrain st.transcriptBuffer st.lastProcessedSequence
  let tiers := drainTiers forceFlush now d.buf
  d.emitted ++ sortTranscripts tiers.recent ++ sortTranscripts tiers.stale ++
    sortTranscripts tiers.forced

/-- The buffer left behind by a reduction pass (named for reasoning). -/
def reduceRemaining (forceFlush : Bool) (now : Nat) (st : ReconcilerState) :
    List (Nat × Transcript) :=
  (drainTiers forceFlush now
    (sequentialDrain st.transcriptBuffer st.lastProcessedSequence).buf).remaining

/-- A concrete payload shape used by witnesses: sequence id `s`, chunk start
time `cst`. -/
def samplePayload (s cst : Nat) : TranscriptUpdate :=
  { text := "segment", timestamp := "00:00", sequence_id := s,
    chunk_start_time := some cst, is_partial := false, confidence := none,
    audio_start_time := none, audio_end_time := none, duration := none }

/-- One reconciler-visible occurrence: a `transcript-update` delivery at a
wall-clock time, or a reduction pass (debounce-timer fire, or the Stop/Flush
Protocol's forced flush) at a wall-clock time. -/
inductive ReconcilerEvent where
  | arrival (now : Nat) (payload : TranscriptUpdate)
  | reduce (now : Nat) (forceFlush : Bool)
deriving DecidableEq, Repr

/-- Apply one event to the reconciler state. -/
def reconcilerStep (st : ReconcilerState) : ReconcilerEvent → ReconcilerState
  | .arrival now p => onTranscriptUpdate now p st
  | .reduce now force => processBufferedTranscripts force now st

/-- Run a trace of events from the initial reconciler state. -/
def runReconciler (evs : List ReconcilerEvent) : ReconcilerState :=
  evs.foldl reconcilerStep initialReconcilerState

/-- The sequence ids delivered by the arrivals of a trace (with duplicates). -/
def arrivedIds : List ReconcilerEvent → List Nat
  | [] => []
  | .arrival _ p :: rest => p.sequence_id :: arrivedIds rest
  | .reduce _ _ :: rest => arrivedIds rest

/-- The wall-clock times of the arrivals of a trace. -/
def arrivalTimes : List ReconcilerEvent → List Nat
  | [] => []
  | .arrival now _ :: rest => now :: arrivalTimes rest
  | .reduce _ _ :: rest => arrivalTimes rest

/-! ## Recording State Synchronizer (`RecordingStateContext.tsx`) -/

/-- The cached `RecordingState` of `RecordingStateContext.tsx`. -/
structure RecordingState where
  isRecording : Bool
  isPaused : Bool
  isActive : Bool
  recordingDuration : Option Nat
  activeDuration : Option Nat
deriving DecidableEq, Repr

/-- The provider's initial state. -/
def initialRecordingState : RecordingState :=
  { isRecording := false, isPaused := false, isActive := false,
    recordingDuration := none, activeDuration := none }

/-- The snake_case snapshot returned by the backend command
`get_recording_state`. -/
structure BackendRecordingState where
  is_recording : Bool
  is_paused : Bool
  is_active : Bool
  recording_duration : Option Nat
  active_duration : Option Nat
deriving DecidableEq, Repr

/-- The derived-field invariant of §3 of the spec:
`isActive == isRecording && !isPaused`. -/
def stateInvariant (s : RecordingState) : Prop :=
  s.isActive = (s.isRecording && !s.isPaused)

instance (s : RecordingState) : Decidable (stateInvariant s) := by
  unfold stateInvariant; exact inferInstance

/-- `syncWithBackend`: on a successful `get_recording_state` query the cache is
overwritten with the backend snapshot; on failure (`none`, the `catch` branch)
the state is left untouched. -/
def syncWithBackend (res : Option BackendRecordingState) (s : RecordingState) :
    RecordingState :=
  match res with
  | none => s
  | some b =>
    { isRecording := b.is_recording, isPaused := b.is_paused, isActive := b.is_active,
      recordingDuration := b.recording_duration, activeDuration := b.active_duration }

/-- The `recording-started` listener's state update. -/
def onRecordingStarted (s : RecordingState) : RecordingState :=
  { s with isRecording := true, isPaused := false, isActive := true }

/-- The `recording-stopped` listener's state update. -/
def onRecordingStopped (_ : RecordingState) : RecordingState :=
  { isRecording := false, isPaused := false, isActive := false,
    recordingDuration := none, activeDuration := none }

/-- The `recording-paused` listener's state update. -/
def onRecordingPaused (s : RecordingState) : RecordingState :=
  { s with isPaused := true, isActive := false }

/-- The `recording-resumed` listener's state update. -/
def onRecordingResumed (s : RecordingState) : RecordingState :=
  { s with isPaused := false, isActive := true }

/-! ## Stop/Flush Protocol (`handleRecordingStop2` in `settings/page.tsx`) -/

/-- The `get_transcription_status` backend response. -/
structure TranscriptionStatus where
  chunks_in_queue : Nat
  is_processing : Bool
  last_activity_ms : Nat
deriving DecidableEq, Repr

/-- `MAX_WAIT_TIME` — 60 seconds maximum wait. -/
def MAX_WAIT_TIME : Nat := 60000

/-- `POLL_INTERVAL` — check every 500 ms. -/
def POLL_INTERVAL : Nat := 500

/-- The transcription-status polling loop of `handleRecordingStop2`,
embedded with explicit fuel (the loop adds `POLL_INTERVAL` to `elapsedTime`
each iteration and its guard requires `elapsedTime < MAX_WAIT_TIME`, so
`MAX_WAIT_TIME / POLL_INTERVAL + 1` iterations always suffice; the fuel-0
branch returns like a failed guard and is never reached from the entry
point).  `eventArr k` tells whether the `transcription-complete` listener has
fired by the time the guard of iteration `k` is checked; `status k` is the
`get_transcription_status` response of iteration `k` (`none` models the
`invoke` call throwing, whose `catch` breaks out of the loop).  Returns the
final `elapsedTime` and `transcriptionComplete`. -/
def drainLoopAux (eventArr : Nat → Bool) (status : Nat → Option TranscriptionStatus) :
    Nat → Nat → Nat → Bool → Nat × Bool
  | 0, _, elapsedTime, tc => (elapsedTime, tc)
  | fuel + 1, k, elapsedTime, tc =>
    let tc := tc || eventArr k
    if elapsedTime < MAX_WAIT_TIME && !tc then
      match status k with
      | none => (elapsedTime, tc)
      | some st =>
        if !st.is_processing && st.chunks_in_queue == 0 then (elapsedTime, true)
        else if st.last_activity_ms > 8000 && st.chunks_in_queue == 0 then (elapsedTime, true)
        else drainLoopAux eventArr status fuel (k + 1) (elapsedTime + POLL_INTERVAL) tc
    else (elapsedTime, tc)

/-- The polling loop as entered by `handleRecordingStop2`:
`elapsedTime = 0`, `transcriptionComplete = false`. -/
def drainLoop (eventArr : Nat → Bool) (status : Nat → Option TranscriptionStatus) :
    Nat × Bool :=
  drainLoopAux eventArr status (MAX_WAIT_TIME / POLL_INTERVAL + 1) 0 0 false

/-- The externally visible actions `handleRecordingStop2` performs after its
polling loop: the optional 4-second late-segment grace wait, the forced
buffer flush, and (conditionally) the `api_save_transcript` persistence call
carrying the meeting name, the folder path and the transcripts captured from
`transcriptsRef.current` after the flush. -/
inductive StopAction where
  | graceWait (ms : Nat)
  | forcedFlush
  | persist (meetingName : Option String) (folderPath : Option String)
      (transcripts : List Transcript)
deriving DecidableEq, Repr

/-- The post-loop tail of `handleRecordingStop2` (new implementation): after
the polling loop returns `(elapsedTime, transcriptionComplete)`, the code
logs a timeout warning when `!transcriptionComplete && elapsedTime >=
MAX_WAIT_TIME` and otherwise waits 4000 ms for late segments; it then always
invokes `finalFlushRef.current()` (= `processBufferedTranscripts(true)` on
the reconciler state), and calls `api_save_transcript` with the fresh
transcript list only when `isCallApi && transcriptionComplete == true`.
Returns the action trace and the reconciler state after the flush. -/
def handleRecordingStop2 (isCallApi : Bool) (eventArr : Nat → Bool)
    (status : Nat → Option TranscriptionStatus) (flushNow : Nat)
    (rst : ReconcilerState) (meetingName folderPath : Option String) :
    List StopAction × ReconcilerState :=
  let r := drainLoop eventArr status
  let elapsedTime := r.1
  let transcriptionComplete := r.2
  let graceActions : List StopAction :=
    if !transcriptionComplete && decide (elapsedTime ≥ MAX_WAIT_TIME) then []
    else [.graceWait 4000]
  let rst' := processBufferedTranscripts true flushNow rst
  let persistActions : List StopAction :=
    if isCallApi && transcriptionComplete then
      [.persist meetingName folderPath rst'.transcripts]
    else []
  (graceActions ++ [.forcedFlush] ++ persistActions, rst')

/-- The caller-visible outcome of the persistence phase: either the session
was saved under a meeting id (the success path runs: session-storage cleanup,
current-meeting update, success toast — the session is durably closed), or it
failed (the error is surfaced via an error toast and rethrown; the outer
`catch` resets the UI flags and no success is reported). -/
inductive PersistOutcome where
  | saved (meetingId : Nat)
  | failed
deriving DecidableEq, Repr

/-- The `api_save_transcript` persistence call of `handleRecordingStop2`
(settings/page.tsx lines 1221-1340): the `invoke` may throw
(`Except.error`), or return a response whose `meeting_id` may be absent — in
which case the code itself throws (`'No meeting ID received from save
operation'`).  Both throws land in the `catch (saveError)` block, which
surfaces an error toast and rethrows, so the session is not reported closed.
Only a response carrying a `meeting_id` reaches the success path, and only
then is the session considered durably closed. -/
def persistTranscriptCall (resp : Except Unit (Option Nat)) : PersistOutcome :=
  match resp with
  | .error _ => .failed
  | .ok none => .failed
  | .ok (some meetingId) => .saved meetingId

/-- Buffer well-formedness: every buffered entry is stored under its own
`sequence_id` (the listener always inserts with `set(payload.sequence_id, t)`
where `t.sequence_id = payload.sequence_id`). -/
def keyConsistent (buf : List (Nat × Transcript)) : Prop :=
  ∀ kt ∈ buf, kt.2.sequence_id = kt.1

instance (buf : List (Nat × Transcript)) : Decidable (keyConsistent buf) := by
  unfold keyConsistent; exact inferInstance

/-- The reconciler's structural invariant: emitted output sorted by
`(chunk_start_time, sequence_id)`, emitted `sequence_id`s unique, buffer keys
unique, and buffer entries keyed by their own `sequence_id`. -/
def goodRecon (st : ReconcilerState) : Prop :=
  st.transcripts.Sorted transcriptLe ∧ (outIds st).Nodup ∧ (bufKeys st).Nodup ∧
    keyConsistent st.transcriptBuffer

/-- Every delivered `sequence_id` is accounted for — either already emitted or
still buffered — and nothing else is. -/
def covers (st : ReconcilerState) (arrived : List Nat) : Prop :=
  ∀ s : Nat, (s ∈ outIds st ∨ s ∈ bufKeys st) ↔ s ∈ arrived

/-- Watermark soundness: every positive sequence id at or below
`lastProcessedSequence` has been emitted. -/
def watermarkCovered (st : ReconcilerState) : Prop :=
  ∀ s : Nat, 1 ≤ s → s ≤ st.lastProcessedSequence → s ∈ outIds st

/-! ## Helper lemmas -/

/-- In force-flush mode the partition loop drains every buffer entry into the
forced tier and leaves nothing buffered. -/
lemma drainTiers_forced (now : Nat) (buf : List (Nat × Transcript)) :
    drainTiers true now buf =
      { stale := [], recent := [], forced := buf.map Prod.snd, remaining := [] } := by
  induction buf with
  | nil => rfl
  | cons kt rest ih => cases kt; simp [drainTiers, ih]

/-- A reduction pass on an empty buffer changes nothing. -/
lemma processBufferedTranscripts_empty_buffer (forceFlush : Bool) (now : Nat)
    (st : ReconcilerState) (h : st.transcriptBuffer = []) :
    processBufferedTranscripts forceFlush now st = st := by
  cases st with
  | mk c b l ts => cases h; rfl

/-- A forced reduction pass always leaves the buffer empty. -/
lemma processBufferedTranscripts_forced_buffer (now : Nat) (st : ReconcilerState) :
    (processBufferedTranscripts true now st).transcriptBuffer = [] := by
  simp [processBufferedTranscripts, drainTiers_forced]

/-- If the completion event never fires and every status poll reports a
non-empty chunk queue, the polling loop runs until `elapsedTime` reaches
`MAX_WAIT_TIME` and exits with `transcriptionComplete = false`. -/
lemma drainLoopAux_never_complete (eventArr : Nat → Bool)
    (status : Nat → Option TranscriptionStatus)
    (he : ∀ k, eventArr k = false)
    (hs : ∀ k, ∃ s, status k = some s ∧ s.chunks_in_queue ≠ 0) :
    ∀ fuel k e, e ≤ MAX_WAIT_TIME → 500 ∣ e →
      MAX_WAIT_TIME ≤ e + POLL_INTERVAL * fuel →
      drainLoopAux eventArr status fuel k e false = (MAX_WAIT_TIME, false) := by
  intro fuel
  induction fuel with
  | zero =>
    intro k e h1 h2 h3
    have he' : e = MAX_WAIT_TIME := by
      simp only [MAX_WAIT_TIME, POLL_INTERVAL] at *; omega
    simp [drainLoopAux, he']
  | succ n ih =>
    intro k e h1 h2 h3
    simp only [drainLoopAux, he k, Bool.or_false, Bool.not_false, Bool.and_true,
      decide_eq_true_eq]
    by_cases hlt : e < MAX_WAIT_TIME
    · obtain ⟨s, hsk, hq⟩ := hs k
      have hq' : (s.chunks_in_queue == 0) = false := by simpa using hq
      rw [if_pos hlt]
      simp only [hsk, hq', Bool.and_false, Bool.false_eq_true, if_false]
      exact ih (k + 1) (e + POLL_INTERVAL)
        (by simp only [MAX_WAIT_TIME, POLL_INTERVAL] at *; omega)
        (by simp only [POLL_INTERVAL] at *; omega)
        (by simp only [MAX_WAIT_TIME, POLL_INTERVAL] at *; omega)
    · have he' : e = MAX_WAIT_TIME := by omega
      simp [hlt, he']

/-- A poll showing an empty, idle queue (`chunks_in_queue = 0`,
`is_processing = false`) makes the loop declare completion at the current
`elapsedTime`, regardless of the event flag or `last_activity_ms`. -/
lemma drainLoopAux_complete_idle (eventArr : Nat → Bool)
    (status : Nat → Option TranscriptionStatus) (f k e : Nat) (tc : Bool)
    (s : TranscriptionStatus) (hsk : status k = some s)
    (hproc : s.is_processing = false) (hq : s.chunks_in_queue = 0)
    (he : e < MAX_WAIT_TIME) :
    drainLoopAux eventArr status (f + 1) k e tc = (e, true) := by
  simp only [drainLoopAux]
  cases htc : tc || eventArr k
  · simp [he, hsk, hproc, hq]
  · simp [htc]

/-- A poll showing an empty queue with no activity for more than 8000 ms makes
the loop declare completion at the current `elapsedTime`. -/
lemma drainLoopAux_complete_quiet (eventArr : Nat → Bool)
    (status : Nat → Option TranscriptionStatus) (f k e : Nat) (tc : Bool)
    (s : TranscriptionStatus) (hsk : status k = some s)
    (hq : s.chunks_in_queue = 0) (hact : s.last_activity_ms > 8000)
    (he : e < MAX_WAIT_TIME) :
    drainLoopAux eventArr status (f + 1) k e tc = (e, true) := by
  simp only [drainLoopAux]
  cases htc : tc || eventArr k
  · cases hp : s.is_processing
    · simp [he, hsk, hp, hq]
    · simp [he, hsk, hp, hq, hact]
  · simp [htc]

/-- A `transcription-complete` event observed at the guard makes the loop
exit immediately with completion declared at the current `elapsedTime`. -/
lemma drainLoopAux_complete_event (eventArr : Nat → Bool)
    (status : Nat → Option TranscriptionStatus) (f k e : Nat) (tc : Bool)
    (hk : eventArr k = true) :
    drainLoopAux eventArr status (f + 1) k e tc = (e, true) := by
  simp [drainLoopAux, hk]

/-- If no completion event fires and no poll ever satisfies the empty-idle or
empty-quiet condition, the loop never declares completion. -/
lemma drainLoopAux_not_complete (eventArr : Nat → Bool)
    (status : Nat → Option TranscriptionStatus)
    (he : ∀ k, eventArr k = false)
    (hs : ∀ k s, status k = some s →
      (s.is_processing = true ∨ s.chunks_in_queue ≠ 0) ∧
      (s.last_activity_ms ≤ 8000 ∨ s.chunks_in_queue ≠ 0)) :
    ∀ fuel k e, (drainLoopAux eventArr status fuel k e false).2 = false := by
  intro fuel
  induction fuel with
  | zero => intro k e; rfl
  | succ n ih =>
    intro k e
    simp only [drainLoopAux, he k, Bool.or_false, Bool.not_false, Bool.and_true,
      decide_eq_true_eq]
    by_cases hlt : e < MAX_WAIT_TIME
    · cases hsk : status k with
      | none => simp [hlt]
      | some s =>
        have h1 : (!s.is_processing && s.chunks_in_queue == 0) = false := by
          rcases (hs k s hsk).1 with h | h <;> simp [h]
        have h2 : (decide (s.last_activity_ms > 8000) && s.chunks_in_queue == 0) = false := by
          rcases (hs k s hsk).2 with h | h
          · have h' : ¬(s.last_activity_ms > 8000) := by omega
            simp [h']
          · simp [h]
        rw [if_pos hlt]
        simp only [hsk, h1, Bool.false_eq_true, if_false, h2]
        exact ih (k + 1) (e + POLL_INTERVAL)
    · simp [hlt]

/-- Stepping lemma: as long as neither the completion event nor either poll
condition holds (and every status query succeeds), the loop marches on —
after `n` such iterations it is at poll index `k + n` with `elapsedTime`
advanced by `n` poll intervals and completion still undeclared. -/
lemma drainLoopAux_skip (eventArr : Nat → Bool)
    (status : Nat → Option TranscriptionStatus) :
    ∀ (n fuel k e : Nat), n ≤ fuel →
      (∀ j, j < n → eventArr (k + j) = false) →
      (∀ j, j < n → ∃ s, status (k + j) = some s ∧
        (s.is_processing = true ∨ s.chunks_in_queue ≠ 0) ∧
        (s.last_activity_ms ≤ 8000 ∨ s.chunks_in_queue ≠ 0)) →
      (∀ j, j < n → e + POLL_INTERVAL * j < MAX_WAIT_TIME) →
      drainLoopAux eventArr status fuel k e false =
        drainLoopAux eventArr status (fuel - n) (k + n)
          (e + POLL_INTERVAL * n) false := by
  intro n
  induction n with
  | zero => intro fuel k e _ _ _ _; simp
  | succ m ih =>
    intro fuel k e hfuel hev hst hlt
    cases fuel with
    | zero => omega
    | succ f =>
      have hev0 := hev 0 (by omega)
      obtain ⟨s, hsk, h1, h2⟩ := hst 0 (by omega)
      have hlt0 := hlt 0 (by omega)
      simp only [Nat.add_zero] at hev0 hsk
      simp only [Nat.mul_zero, Nat.add_zero] at hlt0
      have h1' : (!s.is_processing && s.chunks_in_queue == 0) = false := by
        rcases h1 with h | h <;> simp [h]
      have h2' : (decide (s.last_activity_ms > 8000) && s.chunks_in_queue == 0)
          = false := by
        rcases h2 with h | h
        · have h' : ¬(s.last_activity_ms > 8000) := by omega
          simp [h']
        · simp [h]
      simp only [drainLoopAux, hev0, Bool.or_false, Bool.not_false, Bool.and_true,
        decide_eq_true_eq]
      rw [if_pos hlt0]
      simp only [hsk, h1', Bool.false_eq_true, if_false, h2']
      have hstep := ih f (k + 1) (e + POLL_INTERVAL) (by omega)
        (fun j hj => by
          have h := hev (j + 1) (by omega)
          rw [show k + (j + 1) = k + 1 + j from by omega] at h
          exact h)
        (fun j hj => by
          have h := hst (j + 1) (by omega)
          rw [show k + (j + 1) = k + 1 + j from by omega] at h
          exact h)
        (fun j hj => by
          have h := hlt (j + 1) (by omega)
          simp only [POLL_INTERVAL] at h ⊢
          omega)
      rw [hstep]
      have e1 : f + 1 - (m + 1) = f - m := by omega
      have e2 : k + (m + 1) = k + 1 + m := by omega
      have e3 : e + POLL_INTERVAL * (m + 1) = e + POLL_INTERVAL + POLL_INTERVAL * m := by
        simp only [POLL_INTERVAL]
        omega
      rw [e1, e2, e3]

end MeetingMinutes

namespace MeetingMinutes

/-! ## Claim theorems: synchronizer and Stop/Flush Protocol -/

/-- C7: if the `sync()` query to the backend fails, the cached `SessionState`
is left exactly equal to its last known value — the `catch` branch of
`syncWithBackend` performs no state mutation. -/
theorem sync_failure_preserves_state (s : RecordingState) :
    syncWithBackend none s = s := rfl

/-- C2 counterexample: the claimed invariant `isActive == isRecording &&
!isPaused` does not survive every handler in every delivery order.  The
initial state satisfies the invariant, yet the `recording-resumed` handler
applied to it (a `resumed` event delivered while the cache says idle, which
at-least-once unordered delivery permits) sets `isActive := true` while
`isRecording` stays `false`. -/
theorem resumed_while_idle_breaks_invariant :
    stateInvariant initialRecordingState ∧
    ¬ stateInvariant (onRecordingResumed initialRecordingState) := by decide

/-- C2 amended: the cached state satisfies `isActive = isRecording &&
!isPaused` after the `started`, `stopped` and `paused` handlers
unconditionally, after any successful sync whose backend snapshot itself
satisfies the derived-field equation, and after the `resumed` handler
provided the cache shows `isRecording = true` (which event ordering does not
guarantee: see `resumed_while_idle_breaks_invariant`). -/
theorem sessionState_invariant_amended :
    (∀ s : RecordingState, stateInvariant (onRecordingStarted s)) ∧
    (∀ s : RecordingState, stateInvariant (onRecordingStopped s)) ∧
    (∀ s : RecordingState, stateInvariant (onRecordingPaused s)) ∧
    (∀ (s : RecordingState) (b : BackendRecordingState),
      b.is_active = (b.is_recording && !b.is_paused) →
      stateInvariant (syncWithBackend (some b) s)) ∧
    (∀ s : RecordingState, s.isRecording = true →
      stateInvariant (onRecordingResumed s)) := by
  refine ⟨fun s => rfl, fun s => rfl, fun s => ?_, fun s b hb => ?_, fun s hr => ?_⟩
  · simp [stateInvariant, onRecordingPaused]
  · simpa [stateInvariant, syncWithBackend] using hb
  · simp [stateInvariant, onRecordingResumed, hr]

/-- Witness for `sessionState_invariant_amended` at concrete inputs. -/
theorem sessionState_invariant_amended_witness :
    stateInvariant (onRecordingStarted initialRecordingState) ∧
    stateInvariant (syncWithBackend
      (some { is_recording := true, is_paused := false, is_active := true,
              recording_duration := none, active_duration := none })
      initialRecordingState) ∧
    stateInvariant (onRecordingResumed (onRecordingStarted initialRecordingState)) :=
  ⟨sessionState_invariant_amended.1 _,
   sessionState_invariant_amended.2.2.2.1 _ _ rfl,
   sessionState_invariant_amended.2.2.2.2 _ rfl⟩

/-- C9: forced flush is idempotent — a second forced reduction pass with no
arrivals in between (at any wall-clock time) changes nothing: the first pass
left the buffer empty, so the second emits nothing and leaves the output
untouched. -/
theorem forced_flush_idempotent (now1 now2 : Nat) (st : ReconcilerState) :
    processBufferedTranscripts true now2 (processBufferedTranscripts true now1 st) =
      processBufferedTranscripts true now1 st :=
  processBufferedTranscripts_empty_buffer true now2 _
    (processBufferedTranscripts_forced_buffer now1 st)

/-- C4: a Stop/Flush run that never receives a `transcription-complete` event
and never observes an empty chunk queue exits the polling loop exactly when
`elapsedTime` reaches the 60-second `MAX_WAIT_TIME`, with completion still
undeclared — and the protocol still performs the forced flush. -/
theorem stopFlush_timeout_forces_flush (isCallApi : Bool) (eventArr : Nat → Bool)
    (status : Nat → Option TranscriptionStatus) (flushNow : Nat)
    (rst : ReconcilerState) (mName fPath : Option String)
    (he : ∀ k, eventArr k = false)
    (hs : ∀ k, ∃ s, status k = some s ∧ s.chunks_in_queue ≠ 0) :
    drainLoop eventArr status = (MAX_WAIT_TIME, false) ∧
    StopAction.forcedFlush ∈
      (handleRecordingStop2 isCallApi eventArr status flushNow rst mName fPath).1 := by
  have h := drainLoopAux_never_complete eventArr status he hs
    (MAX_WAIT_TIME / POLL_INTERVAL + 1) 0 0
    (by norm_num [MAX_WAIT_TIME]) ⟨0, rfl⟩
    (by norm_num [MAX_WAIT_TIME, POLL_INTERVAL])
  have hd : drainLoop eventArr status = (MAX_WAIT_TIME, false) := h
  refine ⟨hd, ?_⟩
  simp [handleRecordingStop2, hd]

/-- Witness for `stopFlush_timeout_forces_flush`: no completion event ever,
every poll reports one chunk still queued. -/
theorem stopFlush_timeout_forces_flush_witness :
    drainLoop (fun _ => false)
        (fun _ => some { chunks_in_queue := 1, is_processing := true,
                         last_activity_ms := 0 }) = (MAX_WAIT_TIME, false) ∧
    StopAction.forcedFlush ∈
      (handleRecordingStop2 true (fun _ => false)
        (fun _ => some { chunks_in_queue := 1, is_processing := true,
                         last_activity_ms := 0 })
        0 initialReconcilerState none none).1 :=
  stopFlush_timeout_forces_flush true _ _ 0 initialReconcilerState none none
    (fun _ => rfl)
    (fun _ => ⟨{ chunks_in_queue := 1, is_processing := true, last_activity_ms := 0 },
      rfl, by decide⟩)

/-- C5: during `DrainingTranscription`, completion is declared exactly when
one of the three conditions of the spec first holds — (a) a
`transcription-complete` event, (b) an empty and idle queue, (c) an empty
queue quiet for more than 8000 ms.  For any poll index `k` the loop reaches
(no earlier guard saw the event, no earlier poll erred or satisfied (b) or
(c)), a condition holding at `k` declares completion right there, with
`elapsedTime = POLL_INTERVAL * k`; in particular a first poll already showing
an empty, idle queue completes with `elapsedTime = 0` (within one poll
interval, with no activity-quiet wait); and when none of the three conditions
ever holds, completion is never declared. -/
theorem draining_completion_conditions (eventArr : Nat → Bool)
    (status : Nat → Option TranscriptionStatus) :
    (∀ k : Nat, POLL_INTERVAL * k < MAX_WAIT_TIME →
      (∀ j, j < k → eventArr j = false) →
      (∀ j, j < k → ∃ s, status j = some s ∧
        (s.is_processing = true ∨ s.chunks_in_queue ≠ 0) ∧
        (s.last_activity_ms ≤ 8000 ∨ s.chunks_in_queue ≠ 0)) →
      (eventArr k = true →
        drainLoop eventArr status = (POLL_INTERVAL * k, true)) ∧
      (∀ s, status k = some s → s.is_processing = false → s.chunks_in_queue = 0 →
        drainLoop eventArr status = (POLL_INTERVAL * k, true)) ∧
      (∀ s, status k = some s → s.chunks_in_queue = 0 → s.last_activity_ms > 8000 →
        drainLoop eventArr status = (POLL_INTERVAL * k, true))) ∧
    (∀ s, status 0 = some s → s.is_processing = false → s.chunks_in_queue = 0 →
      drainLoop eventArr status = (0, true)) ∧
    ((∀ k, eventArr k = false) →
      (∀ k s, status k = some s →
        (s.is_processing = true ∨ s.chunks_in_queue ≠ 0) ∧
        (s.last_activity_ms ≤ 8000 ∨ s.chunks_in_queue ≠ 0)) →
      (drainLoop eventArr status).2 = false) := by
  refine ⟨?_, fun s hsk hp hq => ?_, fun he hs => ?_⟩
  · intro k hk hev hst
    have hkb : k ≤ MAX_WAIT_TIME / POLL_INTERVAL := by
      simp only [MAX_WAIT_TIME, POLL_INTERVAL] at *
      omega
    have hskip := drainLoopAux_skip eventArr status k
      (MAX_WAIT_TIME / POLL_INTERVAL + 1) 0 0 (by omega)
      (fun j hj => by simpa using hev j hj)
      (fun j hj => by simpa using hst j hj)
      (fun j hj => by
        simp only [MAX_WAIT_TIME, POLL_INTERVAL] at *
        omega)
    simp only [Nat.zero_add] at hskip
    have hfe : MAX_WAIT_TIME / POLL_INTERVAL + 1 - k =
        (MAX_WAIT_TIME / POLL_INTERVAL - k) + 1 := by omega
    rw [hfe] at hskip
    refine ⟨fun hevk => ?_, fun s hsk hproc hq => ?_, fun s hsk hq hact => ?_⟩
    · unfold drainLoop
      rw [hskip]
      exact drainLoopAux_complete_event eventArr status _ k _ false hevk
    · unfold drainLoop
      rw [hskip]
      exact drainLoopAux_complete_idle eventArr status _ k _ false s hsk hproc hq hk
    · unfold drainLoop
      rw [hskip]
      exact drainLoopAux_complete_quiet eventArr status _ k _ false s hsk hq hact hk
  · exact drainLoopAux_complete_idle eventArr status _ 0 0 false s hsk hp hq
      (by norm_num [MAX_WAIT_TIME])
  · exact drainLoopAux_not_complete eventArr status he hs _ 0 0

/-- Witness for `draining_completion_conditions`: the first poll reports a
busy queue, the second reports an empty idle one — completion is declared at
the second poll, `elapsedTime = POLL_INTERVAL * 1`. -/
theorem draining_completion_conditions_witness :
    drainLoop (fun _ => false)
      (fun j => if j = 0 then
          some { chunks_in_queue := 1, is_processing := true, last_activity_ms := 0 }
        else
          some { chunks_in_queue := 0, is_processing := false,
                 last_activity_ms := 0 }) = (POLL_INTERVAL * 1, true) :=
  ((draining_completion_conditions _ _).1 1
    (by norm_num [MAX_WAIT_TIME, POLL_INTERVAL])
    (fun j hj => rfl)
    (fun j hj => by
      have hj0 : j = 0 := by omega
      subst hj0
      exact ⟨_, rfl, Or.inl rfl, Or.inl (Nat.zero_le _)⟩)).2.1
    { chunks_in_queue := 0, is_processing := false, last_activity_ms := 0 }
    rfl rfl rfl

/-- C6 counterexample: a run in which saving is requested (`isCallApi = true`)
but the drain loop times out (no completion event, queue never empty)
performs the forced flush and then never hands the transcript to the
persistence collaborator at all — `api_save_transcript` is guarded by
`isCallApi && transcriptionComplete == true`, so the action trace is just the
forced flush, with no `persist` step. -/
theorem timeout_run_skips_persistence :
    (handleRecordingStop2 true (fun _ => false)
        (fun _ => some { chunks_in_queue := 1, is_processing := true,
                         last_activity_ms := 0 })
        0 initialReconcilerState none none).1 = [StopAction.forcedFlush] := by
  set_option maxRecDepth 4000 in decide

end MeetingMinutes

namespace MeetingMinutes

open List

/-! ## Buffer and sequential-drain lemmas -/

lemma bufGet_mem {buf : List (Nat × Transcript)} {s : Nat} {t : Transcript}
    (h : bufGet buf s = some t) : (s, t) ∈ buf := by
  unfold bufGet at h
  cases hf : buf.find? (fun p => p.1 == s) with
  | none => rw [hf] at h; exact absurd h (by simp)
  | some x =>
    rw [hf] at h
    simp only [Option.map_some'] at h
    have hx1 := List.find?_some hf
    have hmem := List.mem_of_find?_eq_some hf
    have hx : x = (s, t) := by
      cases x with
      | mk a b =>
        simp only at h hx1
        simp only [beq_iff_eq] at hx1
        simp only [Option.some.injEq] at h
        simp [hx1, h]
    rwa [hx] at hmem

lemma bufDelete_sublist (buf : List (Nat × Transcript)) (s : Nat) :
    bufDelete buf s <+ buf :=
  List.filter_sublist buf

lemma bufDelete_keys (buf : List (Nat × Transcript)) (s : Nat) :
    (bufDelete buf s).map Prod.fst = (buf.map Prod.fst).filter (fun k => k != s) := by
  unfold bufDelete
  rw [List.filter_map]
  rfl

lemma keyConsistent_of_sublist {buf buf' : List (Nat × Transcript)}
    (hs : buf' <+ buf) (h : keyConsistent buf) : keyConsistent buf' :=
  fun kt hm => h kt (hs.subset hm)

/-- Removing one occurrence of a present key from a duplicate-free key list
is a permutation against consing it back on. -/
lemma cons_filter_ne_perm {l : List Nat} {s : Nat} (hnd : l.Nodup) (hm : s ∈ l) :
    s :: l.filter (fun k => k != s) ~ l := by
  rw [← List.Nodup.erase_eq_filter hnd s]
  exact (List.perm_cons_erase hm).symm

/-- Master lemma about the sequential-drain loop: emitted ids are the exact
contiguous range above the old watermark, the remaining buffer is a sublist,
and emitted ids plus remaining keys are a permutation of the original keys. -/
lemma sequentialDrainAux_spec :
    ∀ (fuel : Nat) (buf : List (Nat × Transcript)) (lastSeq : Nat),
      keyConsistent buf → (buf.map Prod.fst).Nodup →
      lastSeq ≤ (sequentialDrainAux fuel buf lastSeq).last ∧
      (sequentialDrainAux fuel buf lastSeq).buf <+ buf ∧
      (sequentialDrainAux fuel buf lastSeq).emitted.map (·.sequence_id) =
        List.range' (lastSeq + 1) ((sequentialDrainAux fuel buf lastSeq).last - lastSeq) ∧
      (sequentialDrainAux fuel buf lastSeq).emitted.map (·.sequence_id) ++
        (sequentialDrainAux fuel buf lastSeq).buf.map Prod.fst ~ buf.map Prod.fst := by
  intro fuel
  induction fuel with
  | zero =>
    intro buf lastSeq _ _
    exact ⟨Nat.le_refl _, List.Sublist.refl _, by simp [sequentialDrainAux],
      by simp [sequentialDrainAux]⟩
  | succ n ih =>
    intro buf lastSeq hkc hnd
    cases hg : bufGet buf (lastSeq + 1) with
    | none =>
      simp only [sequentialDrainAux, hg]
      exact ⟨Nat.le_refl _, List.Sublist.refl _, by simp, by simp⟩
    | some t =>
      have hmem : (lastSeq + 1, t) ∈ buf := bufGet_mem hg
      have hkey : t.sequence_id = lastSeq + 1 := hkc _ hmem
      have hkmem : lastSeq + 1 ∈ buf.map Prod.fst :=
        List.mem_map.mpr ⟨(lastSeq + 1, t), hmem, rfl⟩
      have hkc' : keyConsistent (bufDelete buf (lastSeq + 1)) :=
        keyConsistent_of_sublist (bufDelete_sublist buf _) hkc
      have hnd' : ((bufDelete buf (lastSeq + 1)).map Prod.fst).Nodup := by
        rw [bufDelete_keys]
        exact List.Nodup.sublist (List.filter_sublist _) hnd
      obtain ⟨ih1, ih2, ih3, ih4⟩ := ih (bufDelete buf (lastSeq + 1)) (lastSeq + 1) hkc' hnd'
      simp only [sequentialDrainAux, hg]
      refine ⟨by omega, ih2.trans (bufDelete_sublist buf _), ?_, ?_⟩
      · simp only [List.map_cons, hkey, ih3]
        have hlen : (sequentialDrainAux n (bufDelete buf (lastSeq + 1)) (lastSeq + 1)).last -
            lastSeq =
            ((sequentialDrainAux n (bufDelete buf (lastSeq + 1)) (lastSeq + 1)).last -
              (lastSeq + 1)) + 1 := by omega
        rw [hlen, List.range'_succ]
      · simp only [List.map_cons, hkey, List.cons_append]
        calc (lastSeq + 1) ::
            ((sequentialDrainAux n (bufDelete buf (lastSeq + 1)) (lastSeq + 1)).emitted.map
              (·.sequence_id) ++
              (sequentialDrainAux n (bufDelete buf (lastSeq + 1)) (lastSeq + 1)).buf.map
                Prod.fst)
            ~ (lastSeq + 1) :: (bufDelete buf (lastSeq + 1)).map Prod.fst := ih4.cons _
          _ ~ buf.map Prod.fst := by
              rw [bufDelete_keys]
              exact cons_filter_ne_perm hnd hkmem

end MeetingMinutes
namespace MeetingMinutes

open List

/-! ## Tier-partition lemmas -/

lemma drainTiers_remaining_sublist (forceFlush : Bool) (now : Nat) :
    ∀ buf : List (Nat × Transcript), (drainTiers forceFlush now buf).remaining <+ buf := by
  intro buf
  induction buf with
  | nil => simp [drainTiers]
  | cons kt rest ih =>
    cases kt with
    | mk sid t =>
      simp only [drainTiers]
      split_ifs with h1 h2 h3
      · exact ih.cons _
      · exact ih.cons _
      · exact ih.cons _
      · exact ih.cons₂ _

/-- Each buffer entry lands in exactly one tier (or stays): the tiers plus the
remainder are a permutation of the buffer's transcripts. -/
lemma drainTiers_perm (forceFlush : Bool) (now : Nat) :
    ∀ buf : List (Nat × Transcript),
      (drainTiers forceFlush now buf).stale ++ (drainTiers forceFlush now buf).recent ++
        (drainTiers forceFlush now buf).forced ++
        (drainTiers forceFlush now buf).remaining.map Prod.snd ~ buf.map Prod.snd := by
  intro buf
  induction buf with
  | nil => simp [drainTiers]
  | cons kt rest ih =>
    cases kt with
    | mk sid t =>
      rw [List.perm_iff_count]
      intro a
      have hcount := List.perm_iff_count.mp ih a
      simp only [List.count_append] at hcount
      simp only [drainTiers]
      split_ifs with h1 h2 h3 <;>
        simp only [List.map_cons, List.count_append, List.count_cons] <;> omega

/-- With a monotone clock (no buffered entry is from the future), every entry
is at least `recentThreshold = 0` old, so no entry ever stays buffered. -/
lemma drainTiers_remaining_nil (forceFlush : Bool) (now : Nat) :
    ∀ buf : List (Nat × Transcript), (∀ kt ∈ buf, kt.2.idTime ≤ now) →
      (drainTiers forceFlush now buf).remaining = [] := by
  intro buf
  induction buf with
  | nil => simp [drainTiers]
  | cons kt rest ih =>
    intro hb
    cases kt with
    | mk sid t =>
      have ht : t.idTime ≤ now := hb (sid, t) (by simp)
      have hrest := ih (fun kt hm => hb kt (List.mem_cons_of_mem _ hm))
      simp only [drainTiers]
      split_ifs with h1 h2 h3
      · exact hrest
      · exact hrest
      · exact hrest
      · exfalso
        simp only [recentThreshold, ge_iff_le, not_le] at h3
        omega

/-! ## Sort and merge lemmas -/

lemma sortTranscripts_perm (l : List Transcript) : sortTranscripts l ~ l :=
  List.perm_insertionSort transcriptLe l

lemma sortTranscripts_sorted (l : List Transcript) :
    (sortTranscripts l).Sorted transcriptLe :=
  List.sorted_insertionSort transcriptLe l

/-- The merged output is, up to order, the previous output plus the batch
entries whose `sequence_id` was not already present. -/
lemma mergeTranscripts_perm (prev allNew : List Transcript) :
    mergeTranscripts prev allNew ~
      prev ++ allNew.filter
        (fun t => !((prev.map (·.sequence_id)).contains t.sequence_id)) := by
  simp only [mergeTranscripts]
  split_ifs with h
  · rw [List.isEmpty_iff] at h
    rw [h]
    simp
  · exact sortTranscripts_perm _

lemma mergeTranscripts_sorted (prev allNew : List Transcript)
    (hs : prev.Sorted transcriptLe) :
    (mergeTranscripts prev allNew).Sorted transcriptLe := by
  simp only [mergeTranscripts]
  split_ifs with h
  · exact hs
  · exact sortTranscripts_sorted _

lemma mergeTranscripts_prev_mem (prev allNew : List Transcript) {t : Transcript}
    (h : t ∈ prev) : t ∈ mergeTranscripts prev allNew :=
  (mergeTranscripts_perm prev allNew).symm.subset (List.mem_append_left _ h)

lemma mergeTranscripts_ids_mem (prev allNew : List Transcript) (k : Nat) :
    k ∈ (mergeTranscripts prev allNew).map (·.sequence_id) ↔
      k ∈ prev.map (·.sequence_id) ∨ k ∈ allNew.map (·.sequence_id) := by
  rw [((mergeTranscripts_perm prev allNew).map (·.sequence_id)).mem_iff]
  rw [List.map_append, List.mem_append]
  constructor
  · rintro (h | h)
    · exact Or.inl h
    · obtain ⟨t, ht, rfl⟩ := List.mem_map.mp h
      exact Or.inr (List.mem_map.mpr ⟨t, (List.mem_filter.mp ht).1, rfl⟩)
  · rintro (h | h)
    · exact Or.inl h
    · obtain ⟨t, ht, rfl⟩ := List.mem_map.mp h
      by_cases hp : t.sequence_id ∈ prev.map (·.sequence_id)
      · exact Or.inl hp
      · refine Or.inr (List.mem_map.mpr ⟨t, List.mem_filter.mpr ⟨ht, ?_⟩, rfl⟩)
        simpa using hp

end MeetingMinutes
namespace MeetingMinutes

open List

/-! ## Deduplication lemmas -/

/-- In a list whose `sequence_id`s are duplicate-free, at most one element
carries any given id. -/
lemma filter_seq_length_le_one {l : List Transcript} {s : Nat}
    (hnd : (l.map (·.sequence_id)).Nodup) :
    (l.filter (fun t => t.sequence_id == s)).length ≤ 1 := by
  induction l with
  | nil => simp
  | cons t rest ih =>
    simp only [List.map_cons, List.nodup_cons] at hnd
    by_cases ht : (t.sequence_id == s) = true
    · have hrest : rest.filter (fun u => u.sequence_id == s) = [] := by
        rw [List.filter_eq_nil_iff]
        intro u hu hus
        apply hnd.1
        have : u.sequence_id = s := by simpa using hus
        have hts : t.sequence_id = s := by simpa using ht
        exact List.mem_map.mpr ⟨u, hu, by rw [this, hts]⟩
      simp [List.filter_cons, ht, hrest]
    · simp only [List.filter_cons, ht, if_false]
      exact ih hnd.2

lemma eq_of_perm_length_le_one {α : Type} {l l' : List α} (hp : l ~ l')
    (hl : l.length ≤ 1) : l = l' := by
  match l, hl with
  | [], _ => exact (List.perm_nil.mp hp.symm).symm
  | [a], _ => exact (List.perm_singleton.mp hp.symm).symm

lemma mergeTranscripts_nodup (prev allNew : List Transcript)
    (hp : (prev.map (·.sequence_id)).Nodup) (hn : (allNew.map (·.sequence_id)).Nodup) :
    ((mergeTranscripts prev allNew).map (·.sequence_id)).Nodup := by
  rw [((mergeTranscripts_perm prev allNew).map (·.sequence_id)).nodup_iff]
  rw [List.map_append, List.nodup_append]
  refine ⟨hp, List.Nodup.sublist ((List.filter_sublist allNew).map _) hn, ?_⟩
  intro k hk1 hk2
  obtain ⟨t, ht, rfl⟩ := List.mem_map.mp hk2
  have := (List.mem_filter.mp ht).2
  simp only [Bool.not_eq_eq_eq_not, Bool.not_true] at this
  rw [List.contains_eq_any_beq] at this
  simp only [List.any_eq_false] at this
  obtain ⟨u, hu, hueq⟩ := List.mem_map.mp hk1
  exact (this u.sequence_id (List.mem_map.mpr ⟨u, hu, rfl⟩)) (by simp [hueq])

/-- Merging never touches the entries already emitted under an id that is
already present: their filtered sublist is exactly preserved. -/
lemma mergeTranscripts_filter_preserved (prev allNew : List Transcript) (s : Nat)
    (hp : (prev.map (·.sequence_id)).Nodup) (hs : s ∈ prev.map (·.sequence_id)) :
    (mergeTranscripts prev allNew).filter (fun t => t.sequence_id == s) =
      prev.filter (fun t => t.sequence_id == s) := by
  have hperm := (mergeTranscripts_perm prev allNew).filter (fun t => t.sequence_id == s)
  rw [List.filter_append] at hperm
  have hu : (allNew.filter
      (fun t => !((prev.map (·.sequence_id)).contains t.sequence_id))).filter
        (fun t => t.sequence_id == s) = [] := by
    rw [List.filter_eq_nil_iff]
    intro t ht hts
    have hcond := (List.mem_filter.mp ht).2
    have hts' : t.sequence_id = s := by simpa using hts
    rw [hts'] at hcond
    simp only [Bool.not_eq_eq_eq_not, Bool.not_true] at hcond
    rw [List.contains_eq_any_beq] at hcond
    simp only [List.any_eq_false] at hcond
    exact absurd (by simp) (hcond s hs)
  rw [hu, List.append_nil] at hperm
  exact eq_of_perm_length_le_one hperm
    (by rw [hperm.length_eq]; exact filter_seq_length_le_one hp)

end MeetingMinutes
namespace MeetingMinutes

open List

/-! ## Reduction-pass lemmas -/

/-- `processBufferedTranscripts` decomposed through the named batch and
remainder. -/
lemma processBufferedTranscripts_eq (f : Bool) (now : Nat) (st : ReconcilerState) :
    processBufferedTranscripts f now st =
      { transcriptCounter := st.transcriptCounter,
        transcriptBuffer := reduceRemaining f now st,
        lastProcessedSequence :=
          (sequentialDrain st.transcriptBuffer st.lastProcessedSequence).last,
        transcripts :=
          if (reduceBatch f now st).length > 0 then
            mergeTranscripts st.transcripts (reduceBatch f now st)
          else st.transcripts } := rfl

lemma sequentialDrain_spec (buf : List (Nat × Transcript)) (lastSeq : Nat)
    (hkc : keyConsistent buf) (hnd : (buf.map Prod.fst).Nodup) :
    lastSeq ≤ (sequentialDrain buf lastSeq).last ∧
    (sequentialDrain buf lastSeq).buf <+ buf ∧
    (sequentialDrain buf lastSeq).emitted.map (·.sequence_id) =
      List.range' (lastSeq + 1) ((sequentialDrain buf lastSeq).last - lastSeq) ∧
    (sequentialDrain buf lastSeq).emitted.map (·.sequence_id) ++
      (sequentialDrain buf lastSeq).buf.map Prod.fst ~ buf.map Prod.fst :=
  sequentialDrainAux_spec buf.length buf lastSeq hkc hnd

/-- Pointwise: projecting the second components of a key-consistent buffer to
their `sequence_id`s yields exactly the keys. -/
lemma map_snd_seq_eq_keys (l : List (Nat × Transcript)) (hl : keyConsistent l) :
    (l.map Prod.snd).map (·.sequence_id) = l.map Prod.fst := by
  rw [List.map_map]
  exact List.map_congr_left (fun kt hm => hl kt hm)

lemma reduceRemaining_sublist (f : Bool) (now : Nat) (st : ReconcilerState)
    (hkc : keyConsistent st.transcriptBuffer) (hnd : (bufKeys st).Nodup) :
    reduceRemaining f now st <+ st.transcriptBuffer := by
  have h2 := (sequentialDrain_spec st.transcriptBuffer st.lastProcessedSequence hkc hnd).2.1
  exact (drainTiers_remaining_sublist f now _).trans h2

/-- Conservation of sequence ids across one reduction pass: the batch's ids
together with the remaining keys are a permutation of the buffer's keys. -/
lemma reduceBatch_perm (f : Bool) (now : Nat) (st : ReconcilerState)
    (hkc : keyConsistent st.transcriptBuffer) (hnd : (bufKeys st).Nodup) :
    (reduceBatch f now st).map (·.sequence_id) ++
      (reduceRemaining f now st).map Prod.fst ~ bufKeys st := by
  obtain ⟨hd1, hd2, hd3, hd4⟩ :=
    sequentialDrain_spec st.transcriptBuffer st.lastProcessedSequence hkc hnd
  have hkc' : keyConsistent (sequentialDrain st.transcriptBuffer
      st.lastProcessedSequence).buf := keyConsistent_of_sublist hd2 hkc
  have hnd' : ((sequentialDrain st.transcriptBuffer
      st.lastProcessedSequence).buf.map Prod.fst).Nodup :=
    List.Nodup.sublist (hd2.map Prod.fst) hnd
  have hkcr : keyConsistent (reduceRemaining f now st) :=
    keyConsistent_of_sublist (drainTiers_remaining_sublist f now _) hkc'
  have tpm := (drainTiers_perm f now
    (sequentialDrain st.transcriptBuffer st.lastProcessedSequence).buf).map
      (·.sequence_id)
  rw [List.map_append, List.map_append, List.map_append] at tpm
  rw [map_snd_seq_eq_keys _ hkc'] at tpm
  rw [show ((drainTiers f now (sequentialDrain st.transcriptBuffer
      st.lastProcessedSequence).buf).remaining.map Prod.snd).map (·.sequence_id) =
      (reduceRemaining f now st).map Prod.fst from map_snd_seq_eq_keys _ hkcr] at tpm
  rw [List.perm_iff_count]
  intro a
  have c1 := List.perm_iff_count.mp hd4 a
  have c2 := List.perm_iff_count.mp tpm a
  have cr := List.perm_iff_count.mp ((sortTranscripts_perm (drainTiers f now
    (sequentialDrain st.transcriptBuffer st.lastProcessedSequence).buf).recent).map
      (·.sequence_id)) a
  have cs := List.perm_iff_count.mp ((sortTranscripts_perm (drainTiers f now
    (sequentialDrain st.transcriptBuffer st.lastProcessedSequence).buf).stale).map
      (·.sequence_id)) a
  have cf := List.perm_iff_count.mp ((sortTranscripts_perm (drainTiers f now
    (sequentialDrain st.transcriptBuffer st.lastProcessedSequence).buf).forced).map
      (·.sequence_id)) a
  simp only [reduceBatch, bufKeys, List.map_append, List.count_append] at c1 c2 cr cs cf ⊢
  omega

lemma reduceBatch_nodup (f : Bool) (now : Nat) (st : ReconcilerState)
    (hkc : keyConsistent st.transcriptBuffer) (hnd : (bufKeys st).Nodup) :
    ((reduceBatch f now st).map (·.sequence_id)).Nodup :=
  List.Nodup.of_append_left
    (((reduceBatch_perm f now st hkc hnd).nodup_iff).mpr hnd)

lemma reduceBatch_mem (f : Bool) (now : Nat) (st : ReconcilerState)
    (hkc : keyConsistent st.transcriptBuffer) (hnd : (bufKeys st).Nodup) (k : Nat) :
    k ∈ (reduceBatch f now st).map (·.sequence_id) ∨
      k ∈ (reduceRemaining f now st).map Prod.fst ↔ k ∈ bufKeys st := by
  rw [← List.mem_append]
  exact (reduceBatch_perm f now st hkc hnd).mem_iff

end MeetingMinutes
namespace MeetingMinutes

open List

/-! ## Step-preservation lemmas -/

lemma bufHas_false_iff (buf : List (Nat × Transcript)) (s : Nat) :
    bufHas buf s = false ↔ s ∉ buf.map Prod.fst := by
  simp only [bufHas, List.any_eq_false, List.mem_map]
  constructor
  · rintro h ⟨kt, hm, rfl⟩
    exact h kt hm (by simp)
  · intro h kt hm hbeq
    exact h ⟨kt, hm, by simpa using hbeq⟩

lemma bufHas_true_iff (buf : List (Nat × Transcript)) (s : Nat) :
    bufHas buf s = true ↔ s ∈ buf.map Prod.fst := by
  constructor
  · intro h
    by_contra hn
    rw [← bufHas_false_iff] at hn
    rw [h] at hn
    exact Bool.true_eq_false.mp hn
  · intro h
    by_contra hn
    rw [Bool.not_eq_true] at hn
    exact (bufHas_false_iff _ _).mp hn h

lemma process_goodRecon (f : Bool) (now : Nat) (st : ReconcilerState)
    (hg : goodRecon st) : goodRecon (processBufferedTranscripts f now st) := by
  obtain ⟨hs, hno, hnk, hkc⟩ := hg
  rw [processBufferedTranscripts_eq]
  refine ⟨?_, ?_, ?_, ?_⟩
  · simp only
    split_ifs with h
    · exact mergeTranscripts_sorted _ _ hs
    · exact hs
  · simp only [outIds]
    split_ifs with h
    · exact mergeTranscripts_nodup _ _ hno (reduceBatch_nodup f now st hkc hnk)
    · exact hno
  · simp only [bufKeys]
    exact List.Nodup.sublist ((reduceRemaining_sublist f now st hkc hnk).map _) hnk
  · exact keyConsistent_of_sublist (reduceRemaining_sublist f now st hkc hnk) hkc

lemma process_covers (f : Bool) (now : Nat) (st : ReconcilerState) (A : List Nat)
    (hg : goodRecon st) (hc : covers st A) :
    covers (processBufferedTranscripts f now st) A := by
  obtain ⟨hs, hno, hnk, hkc⟩ := hg
  intro k
  have hmem := reduceBatch_mem f now st hkc hnk k
  have hck := hc k
  rw [processBufferedTranscripts_eq]
  simp only [outIds, bufKeys] at *
  split_ifs with h
  · rw [mergeTranscripts_ids_mem]
    tauto
  · have hempty : reduceBatch f now st = [] := by
      cases hb : reduceBatch f now st with
      | nil => rfl
      | cons x xs => rw [hb] at h; simp at h
    rw [hempty] at hmem
    simp only [List.map_nil, List.not_mem_nil, false_or] at hmem
    tauto

lemma process_last_mono (f : Bool) (now : Nat) (st : ReconcilerState)
    (hkc : keyConsistent st.transcriptBuffer) (hnk : (bufKeys st).Nodup) :
    st.lastProcessedSequence ≤
      (processBufferedTranscripts f now st).lastProcessedSequence := by
  rw [processBufferedTranscripts_eq]
  exact (sequentialDrain_spec st.transcriptBuffer st.lastProcessedSequence hkc hnk).1

lemma process_out_mem (f : Bool) (now : Nat) (st : ReconcilerState) {s : Nat}
    (hs : s ∈ outIds st) : s ∈ outIds (processBufferedTranscripts f now st) := by
  rw [processBufferedTranscripts_eq]
  simp only [outIds] at *
  split_ifs with h
  · exact (mergeTranscripts_ids_mem _ _ _).mpr (Or.inl hs)
  · exact hs

lemma process_watermark (f : Bool) (now : Nat) (st : ReconcilerState)
    (hg : goodRecon st) (hw : watermarkCovered st) :
    watermarkCovered (processBufferedTranscripts f now st) := by
  obtain ⟨hs, hno, hnk, hkc⟩ := hg
  obtain ⟨hd1, hd2, hd3, hd4⟩ :=
    sequentialDrain_spec st.transcriptBuffer st.lastProcessedSequence hkc hnk
  intro s h1 h2
  rw [processBufferedTranscripts_eq] at h2 ⊢
  simp only at h2
  by_cases hcase : s ≤ st.lastProcessedSequence
  · have := process_out_mem f now st (hw s h1 hcase)
    rwa [processBufferedTranscripts_eq] at this
  · have hsmem : s ∈ (sequentialDrain st.transcriptBuffer
        st.lastProcessedSequence).emitted.map (·.sequence_id) := by
      rw [hd3, List.mem_range'_1]
      omega
    have hbatch : s ∈ (reduceBatch f now st).map (·.sequence_id) := by
      simp only [reduceBatch, List.map_append, List.mem_append]
      exact Or.inl (Or.inl (Or.inl hsmem))
    have hlen : (reduceBatch f now st).length > 0 := by
      cases hb : reduceBatch f now st with
      | nil => rw [hb] at hbatch; simp at hbatch
      | cons x xs => simp
    simp only [outIds, hlen, if_pos]
    rw [mergeTranscripts_ids_mem]
    exact Or.inr hbatch

lemma process_filter_preserved (f : Bool) (now : Nat) (st : ReconcilerState)
    (s : Nat) (hno : (outIds st).Nodup) (hs : s ∈ outIds st) :
    (processBufferedTranscripts f now st).transcripts.filter
        (fun t => t.sequence_id == s) =
      st.transcripts.filter (fun t => t.sequence_id == s) := by
  rw [processBufferedTranscripts_eq]
  simp only
  split_ifs with h
  · exact mergeTranscripts_filter_preserved _ _ s hno hs
  · rfl

lemma process_buffer_times (f : Bool) (now : Nat) (st : ReconcilerState)
    (T : List Nat) (hkc : keyConsistent st.transcriptBuffer)
    (hnk : (bufKeys st).Nodup)
    (ht : ∀ kt ∈ st.transcriptBuffer, kt.2.idTime ∈ T) :
    ∀ kt ∈ (processBufferedTranscripts f now st).transcriptBuffer,
      kt.2.idTime ∈ T := by
  intro kt hm
  rw [processBufferedTranscripts_eq] at hm
  exact ht kt ((reduceRemaining_sublist f now st hkc hnk).subset hm)

lemma arrival_goodRecon (now : Nat) (p : TranscriptUpdate) (st : ReconcilerState)
    (hg : goodRecon st) : goodRecon (onTranscriptUpdate now p st) := by
  obtain ⟨hs, hno, hnk, hkc⟩ := hg
  unfold onTranscriptUpdate
  split_ifs with h
  · exact ⟨hs, hno, hnk, hkc⟩
  · rw [Bool.not_eq_true] at h
    refine ⟨hs, hno, ?_, ?_⟩
    · simp only [bufKeys, List.map_append, List.map_cons, List.map_nil]
      rw [List.nodup_append]
      refine ⟨hnk, List.nodup_singleton _, ?_⟩
      intro k hk1 hk2
      simp only [List.mem_singleton] at hk2
      subst hk2
      exact (bufHas_false_iff _ _).mp h hk1
    · intro kt hm
      rcases List.mem_append.mp hm with hm | hm
      · exact hkc kt hm
      · simp only [List.mem_singleton] at hm
        subst hm
        rfl

lemma arrival_covers (now : Nat) (p : TranscriptUpdate) (st : ReconcilerState)
    (A : List Nat) (hc : covers st A) :
    covers (onTranscriptUpdate now p st) (p.sequence_id :: A) := by
  intro k
  have hck := hc k
  unfold onTranscriptUpdate
  split_ifs with h
  · have hmem : p.sequence_id ∈ st.transcriptBuffer.map Prod.fst :=
      (bufHas_true_iff _ _).mp h
    simp only [bufKeys] at *
    constructor
    · intro hk
      exact List.mem_cons_of_mem _ (hck.mp hk)
    · intro hk
      rcases List.mem_cons.mp hk with rfl | hk
      · exact Or.inr hmem
      · exact hck.mpr hk
  · simp only [outIds, bufKeys, List.map_append, List.map_cons, List.map_nil,
      List.mem_append, List.mem_singleton, List.mem_cons] at *
    tauto

lemma arrival_watermark (now : Nat) (p : TranscriptUpdate) (st : ReconcilerState)
    (hw : watermarkCovered st) : watermarkCovered (onTranscriptUpdate now p st) := by
  intro s h1 h2
  unfold onTranscriptUpdate at h2 ⊢
  split_ifs at h2 ⊢ with h
  · exact hw s h1 h2
  · exact hw s h1 h2

lemma arrival_buffer_times (now : Nat) (p : TranscriptUpdate)
    (st : ReconcilerState) (T : List Nat)
    (ht : ∀ kt ∈ st.transcriptBuffer, kt.2.idTime ∈ T) :
    ∀ kt ∈ (onTranscriptUpdate now p st).transcriptBuffer,
      kt.2.idTime ∈ now :: T := by
  intro kt hm
  unfold onTranscriptUpdate at hm
  split_ifs at hm with h
  · exact List.mem_cons_of_mem _ (ht kt hm)
  · rcases List.mem_append.mp hm with hm | hm
    · exact List.mem_cons_of_mem _ (ht kt hm)
    · simp only [List.mem_singleton] at hm
      subst hm
      exact List.mem_cons_self _ _

lemma arrival_last_eq (now : Nat) (p : TranscriptUpdate) (st : ReconcilerState) :
    (onTranscriptUpdate now p st).lastProcessedSequence =
      st.lastProcessedSequence := by
  unfold onTranscriptUpdate
  split_ifs <;> rfl

lemma initial_goodRecon : goodRecon initialReconcilerState := by
  refine ⟨List.sorted_nil, ?_, ?_, ?_⟩ <;>
    simp [initialReconcilerState, outIds, bufKeys, keyConsistent]

end MeetingMinutes
namespace MeetingMinutes

open List

/-! ## Trace-level invariants -/

lemma arrival_transcripts_eq (now : Nat) (p : TranscriptUpdate)
    (st : ReconcilerState) :
    (onTranscriptUpdate now p st).transcripts = st.transcripts := by
  unfold onTranscriptUpdate
  split_ifs <;> rfl

/-- The reconciler invariants are preserved along any event trace: structural
well-formedness, id conservation, watermark soundness, buffered-time
provenance, and watermark monotonicity. -/
lemma run_preserves :
    ∀ (evs : List ReconcilerEvent) (st : ReconcilerState) (A T : List Nat),
      goodRecon st → covers st A → watermarkCovered st →
      (∀ kt ∈ st.transcriptBuffer, kt.2.idTime ∈ T) →
      goodRecon (evs.foldl reconcilerStep st) ∧
      covers (evs.foldl reconcilerStep st) (arrivedIds evs ++ A) ∧
      watermarkCovered (evs.foldl reconcilerStep st) ∧
      (∀ kt ∈ (evs.foldl reconcilerStep st).transcriptBuffer,
        kt.2.idTime ∈ arrivalTimes evs ++ T) ∧
      st.lastProcessedSequence ≤ (evs.foldl reconcilerStep st).lastProcessedSequence := by
  intro evs
  induction evs with
  | nil =>
    intro st A T hg hc hw ht
    simp only [List.foldl_nil, arrivedIds, arrivalTimes, List.nil_append]
    exact ⟨hg, hc, hw, ht, Nat.le_refl _⟩
  | cons e rest ih =>
    intro st A T hg hc hw ht
    cases e with
    | arrival now p =>
      have hg' := arrival_goodRecon now p st hg
      have hc' := arrival_covers now p st A hc
      have hw' := arrival_watermark now p st hw
      have ht' := arrival_buffer_times now p st T ht
      obtain ⟨g1, g2, g3, g4, g5⟩ :=
        ih (onTranscriptUpdate now p st) (p.sequence_id :: A) (now :: T) hg' hc' hw' ht'
      simp only [List.foldl_cons, reconcilerStep]
      refine ⟨g1, ?_, g3, ?_, ?_⟩
      · intro k
        have hk := g2 k
        simp only [arrivedIds, List.mem_append, List.mem_cons] at hk ⊢
        tauto
      · intro kt hm
        have hk := g4 kt hm
        simp only [arrivalTimes, List.mem_append, List.mem_cons] at hk ⊢
        tauto
      · rw [← arrival_last_eq now p st]
        exact g5
    | reduce now force =>
      have hg' := process_goodRecon force now st hg
      have hc' := process_covers force now st A hg hc
      have hw' := process_watermark force now st hg hw
      have ht' := process_buffer_times force now st T hg.2.2.2 hg.2.2.1 ht
      obtain ⟨g1, g2, g3, g4, g5⟩ :=
        ih (processBufferedTranscripts force now st) A T hg' hc' hw' ht'
      simp only [List.foldl_cons, reconcilerStep]
      exact ⟨g1, g2, g3, g4,
        (process_last_mono force now st hg.2.2.2 hg.2.2.1).trans g5⟩

/-- The reconciler invariants hold of every run from the initial state. -/
lemma runReconciler_inv (evs : List ReconcilerEvent) :
    goodRecon (runReconciler evs) ∧ covers (runReconciler evs) (arrivedIds evs) ∧
    watermarkCovered (runReconciler evs) ∧
    (∀ kt ∈ (runReconciler evs).transcriptBuffer,
      kt.2.idTime ∈ arrivalTimes evs) := by
  obtain ⟨g1, g2, g3, g4, _⟩ := run_preserves evs initialReconcilerState [] []
    initial_goodRecon
    (by intro k; simp [covers, initialReconcilerState, outIds, bufKeys])
    (by intro s h1 h2; simp only [initialReconcilerState] at h2; omega)
    (by intro kt hm; simp [initialReconcilerState] at hm)
  rw [List.append_nil] at g2 g4
  exact ⟨g1, g2, g3, g4⟩

/-- Once a sequence id is in the emitted output, any further events leave its
emitted entry (and its presence) exactly as it was. -/
lemma run_out_preserved :
    ∀ (evs : List ReconcilerEvent) (st : ReconcilerState), goodRecon st →
      ∀ s, s ∈ outIds st →
        s ∈ outIds (evs.foldl reconcilerStep st) ∧
        (evs.foldl reconcilerStep st).transcripts.filter
            (fun t => t.sequence_id == s) =
          st.transcripts.filter (fun t => t.sequence_id == s) := by
  intro evs
  induction evs with
  | nil => intro st hg s hs; exact ⟨hs, rfl⟩
  | cons e rest ih =>
    intro st hg s hs
    cases e with
    | arrival now p =>
      have hg' := arrival_goodRecon now p st hg
      have hs' : s ∈ outIds (onTranscriptUpdate now p st) := by
        simp only [outIds, arrival_transcripts_eq] at *
        exact hs
      obtain ⟨r1, r2⟩ := ih (onTranscriptUpdate now p st) hg' s hs'
      simp only [List.foldl_cons, reconcilerStep]
      exact ⟨r1, by rw [r2, arrival_transcripts_eq]⟩
    | reduce now force =>
      have hg' := process_goodRecon force now st hg
      have hs' := process_out_mem force now st hs
      obtain ⟨r1, r2⟩ := ih (processBufferedTranscripts force now st) hg' s hs'
      simp only [List.foldl_cons, reconcilerStep]
      exact ⟨r1, by
        rw [r2, process_filter_preserved force now st s hg.2.1 hs]⟩

/-- `arrivedIds` distributes over trace concatenation. -/
lemma arrivedIds_append (l1 l2 : List ReconcilerEvent) :
    arrivedIds (l1 ++ l2) = arrivedIds l1 ++ arrivedIds l2 := by
  induction l1 with
  | nil => simp [arrivedIds]
  | cons e rest ih =>
    cases e <;> simp only [List.cons_append, arrivedIds, List.append_eq, ih]

/-- `arrivalTimes` distributes over trace concatenation. -/
lemma arrivalTimes_append (l1 l2 : List ReconcilerEvent) :
    arrivalTimes (l1 ++ l2) = arrivalTimes l1 ++ arrivalTimes l2 := by
  induction l1 with
  | nil => simp [arrivalTimes]
  | cons e rest ih =>
    cases e <;> simp only [List.cons_append, arrivalTimes, List.append_eq, ih]

end MeetingMinutes
namespace MeetingMinutes

open List

/-! ## Claim theorems: the Transcript Stream Reconciler -/

/-- C1: for every sequence of segment arrivals (any order, with duplicates),
after the final forced flush the emitted transcript is sorted by
`(chunk_start_time, sequence_id)` ascending and contains each delivered
`sequence_id` exactly once (and no other id), regardless of which drain tier
handled each segment. -/
theorem reconciler_output_sorted_unique (evs : List ReconcilerEvent)
    (finalNow : Nat) :
    (runReconciler (evs ++ [ReconcilerEvent.reduce finalNow true])).transcripts.Sorted
        transcriptLe ∧
    (∀ s, s ∈ arrivedIds evs →
      (outIds (runReconciler (evs ++ [ReconcilerEvent.reduce finalNow true]))).count s
        = 1) ∧
    (∀ s, s ∉ arrivedIds evs →
      (outIds (runReconciler (evs ++ [ReconcilerEvent.reduce finalNow true]))).count s
        = 0) := by
  obtain ⟨hg, hc, _, _⟩ := runReconciler_inv (evs ++ [ReconcilerEvent.reduce finalNow true])
  have hbuf : (runReconciler
      (evs ++ [ReconcilerEvent.reduce finalNow true])).transcriptBuffer = [] := by
    rw [runReconciler, List.foldl_append]
    simp only [List.foldl_cons, List.foldl_nil, reconcilerStep]
    exact processBufferedTranscripts_forced_buffer finalNow _
  have harr : arrivedIds (evs ++ [ReconcilerEvent.reduce finalNow true]) =
      arrivedIds evs := by
    rw [arrivedIds_append]
    simp [arrivedIds]
  rw [harr] at hc
  have hmem : ∀ s, s ∈ outIds (runReconciler
      (evs ++ [ReconcilerEvent.reduce finalNow true])) ↔ s ∈ arrivedIds evs := by
    intro s
    have hcs := hc s
    rw [bufKeys, hbuf] at hcs
    simpa using hcs
  refine ⟨hg.1, ?_, ?_⟩
  · intro s hs
    exact List.count_eq_one_of_mem hg.2.1 ((hmem s).mpr hs)
  · intro s hs
    exact List.count_eq_zero_of_not_mem (fun hmm => hs ((hmem s).mp hmm))

/-- Witness for `reconciler_output_sorted_unique`: ids 1 and 2 delivered out
of order with a duplicate of 1 each end up exactly once; id 3 never arrives
and never appears. -/
theorem reconciler_output_sorted_unique_witness :
    (outIds (runReconciler ([ReconcilerEvent.arrival 0 (samplePayload 2 20),
        ReconcilerEvent.arrival 1 (samplePayload 1 10),
        ReconcilerEvent.arrival 2 (samplePayload 1 10)] ++
        [ReconcilerEvent.reduce 10 true]))).count 1 = 1 ∧
    (outIds (runReconciler ([ReconcilerEvent.arrival 0 (samplePayload 2 20),
        ReconcilerEvent.arrival 1 (samplePayload 1 10),
        ReconcilerEvent.arrival 2 (samplePayload 1 10)] ++
        [ReconcilerEvent.reduce 10 true]))).count 3 = 0 :=
  ⟨(reconciler_output_sorted_unique _ 10).2.1 1 (by decide),
   (reconciler_output_sorted_unique _ 10).2.2 3 (by decide)⟩

/-- C3: once a `sequence_id` has been emitted, any further events — including
re-delivery of that id (even one below `lastProcessedSequence` that is no
longer buffered) — leave its count in the output at exactly one and leave its
emitted entry byte-for-byte unchanged. -/
theorem emitted_redelivery_harmless (evs rest : List ReconcilerEvent) (s : Nat)
    (hs : s ∈ outIds (runReconciler evs)) :
    (outIds (runReconciler (evs ++ rest))).count s = 1 ∧
    (runReconciler (evs ++ rest)).transcripts.filter (fun t => t.sequence_id == s) =
      (runReconciler evs).transcripts.filter (fun t => t.sequence_id == s) := by
  obtain ⟨hg, _, _, _⟩ := runReconciler_inv evs
  have hrun : runReconciler (evs ++ rest) =
      rest.foldl reconcilerStep (runReconciler evs) := by
    simp [runReconciler, List.foldl_append]
  obtain ⟨r1, r2⟩ := run_out_preserved rest (runReconciler evs) hg s hs
  obtain ⟨hg2, _, _, _⟩ := runReconciler_inv (evs ++ rest)
  rw [hrun] at hg2 ⊢
  exact ⟨List.count_eq_one_of_mem hg2.2.1 r1, r2⟩

/-- Witness for `emitted_redelivery_harmless`: id 1 is emitted, then
re-delivered (now below the watermark and no longer buffered) and
force-flushed; it still appears exactly once and its entry is unchanged. -/
theorem emitted_redelivery_harmless_witness :
    (outIds (runReconciler ([ReconcilerEvent.arrival 0 (samplePayload 1 10),
        ReconcilerEvent.reduce 0 false] ++
        [ReconcilerEvent.arrival 5 (samplePayload 1 10),
         ReconcilerEvent.reduce 6 true]))).count 1 = 1 ∧
    (runReconciler ([ReconcilerEvent.arrival 0 (samplePayload 1 10),
        ReconcilerEvent.reduce 0 false] ++
        [ReconcilerEvent.arrival 5 (samplePayload 1 10),
         ReconcilerEvent.reduce 6 true])).transcripts.filter
          (fun t => t.sequence_id == 1) =
      (runReconciler [ReconcilerEvent.arrival 0 (samplePayload 1 10),
        ReconcilerEvent.reduce 0 false]).transcripts.filter
          (fun t => t.sequence_id == 1) :=
  emitted_redelivery_harmless _ _ 1 (by decide)

/-- C8 counterexample: after id 1 is emitted (watermark 1), re-delivering id 1
passes the buffer-only duplicate check (the buffer no longer holds it) and is
re-inserted, so the buffer again holds a segment that has already been
emitted — violating "the buffer contains only unprocessed segments" and
"every segment with sequenceId <= lastProcessedSequence has been emitted
exactly once ... the buffer contains only unprocessed segments" as an
after-every-arrival invariant. -/
theorem buffer_readmits_emitted_segment :
    1 ∈ outIds (runReconciler [ReconcilerEvent.arrival 0 (samplePayload 1 10),
      ReconcilerEvent.reduce 0 false,
      ReconcilerEvent.arrival 5 (samplePayload 1 10)]) ∧
    1 ∈ bufKeys (runReconciler [ReconcilerEvent.arrival 0 (samplePayload 1 10),
      ReconcilerEvent.reduce 0 false,
      ReconcilerEvent.arrival 5 (samplePayload 1 10)]) ∧
    (runReconciler [ReconcilerEvent.arrival 0 (samplePayload 1 10),
      ReconcilerEvent.reduce 0 false,
      ReconcilerEvent.arrival 5 (samplePayload 1 10)]).lastProcessedSequence = 1 := by
  decide

/-- C8 amended: `lastProcessedSequence` never decreases; after every step each
positive sequence id at or below the watermark has been emitted exactly once;
and after every reduction pass under a monotone clock the buffer is empty
(hence holds no unemitted — or any — segment).  The buffer-purity clause must
exclude the instant after an arrival that re-delivers an already-emitted id:
such a segment transiently re-enters the buffer until the next pass filters
it from the output (see `buffer_readmits_emitted_segment`). -/
theorem reconciliation_invariant_amended :
    (∀ (evs : List ReconcilerEvent) (e : ReconcilerEvent),
      (runReconciler evs).lastProcessedSequence ≤
        (runReconciler (evs ++ [e])).lastProcessedSequence) ∧
    (∀ (evs : List ReconcilerEvent) (s : Nat), 1 ≤ s →
      s ≤ (runReconciler evs).lastProcessedSequence →
      (outIds (runReconciler evs)).count s = 1) ∧
    (∀ (evs : List ReconcilerEvent) (now : Nat) (force : Bool),
      (∀ u ∈ arrivalTimes evs, u ≤ now) →
      (runReconciler (evs ++ [ReconcilerEvent.reduce now force])).transcriptBuffer
        = []) := by
  refine ⟨?_, ?_, ?_⟩
  · intro evs e
    have hrw : runReconciler (evs ++ [e]) =
        reconcilerStep (runReconciler evs) e := by
      rw [runReconciler, List.foldl_append]
      rfl
    rw [hrw]
    obtain ⟨hg, _, _, _⟩ := runReconciler_inv evs
    cases e with
    | arrival now p =>
      rw [reconcilerStep, arrival_last_eq]
    | reduce now force =>
      exact process_last_mono force now _ hg.2.2.2 hg.2.2.1
  · intro evs s h1 h2
    obtain ⟨hg, _, hw, _⟩ := runReconciler_inv evs
    exact List.count_eq_one_of_mem hg.2.1 (hw s h1 h2)
  · intro evs now force hT
    obtain ⟨hg, _, _, htimes⟩ := runReconciler_inv evs
    have hrw : runReconciler (evs ++ [ReconcilerEvent.reduce now force]) =
        processBufferedTranscripts force now (runReconciler evs) := by
      rw [runReconciler, List.foldl_append]
      rfl
    rw [hrw, processBufferedTranscripts_eq]
    simp only [reduceRemaining]
    apply drainTiers_remaining_nil
    intro kt hm
    have hsub := (sequentialDrain_spec (runReconciler evs).transcriptBuffer
      (runReconciler evs).lastProcessedSequence hg.2.2.2 hg.2.2.1).2.1
    exact hT _ (htimes kt (hsub.subset hm))

/-- Witness for `reconciliation_invariant_amended` at a concrete trace. -/
theorem reconciliation_invariant_amended_witness :
    (outIds (runReconciler [ReconcilerEvent.arrival 0 (samplePayload 1 10),
      ReconcilerEvent.reduce 0 false])).count 1 = 1 ∧
    (runReconciler ([ReconcilerEvent.arrival 0 (samplePayload 1 10)] ++
      [ReconcilerEvent.reduce 3 false])).transcriptBuffer = [] :=
  ⟨reconciliation_invariant_amended.2.1 _ 1 (by decide) (by decide),
   reconciliation_invariant_amended.2.2 _ 3 false (by decide)⟩

/-- C10: a reduction pass, forced or not, leaves the buffer empty whenever the
clock is monotone (no buffered entry was stamped after `now`): with
`recentThreshold = 0` every buffered segment not drained sequentially goes out
through the recent (or stale) tier in the same pass, and every formerly
buffered sequence id is in the emitted output afterwards. -/
theorem reduction_empties_buffer (force : Bool) (now : Nat) (st : ReconcilerState)
    (hkc : keyConsistent st.transcriptBuffer) (hnk : (bufKeys st).Nodup)
    (ht : ∀ kt ∈ st.transcriptBuffer, kt.2.idTime ≤ now) :
    (processBufferedTranscripts force now st).transcriptBuffer = [] ∧
    ∀ k ∈ bufKeys st, k ∈ outIds (processBufferedTranscripts force now st) := by
  have hempty : (processBufferedTranscripts force now st).transcriptBuffer = [] := by
    rw [processBufferedTranscripts_eq]
    simp only [reduceRemaining]
    apply drainTiers_remaining_nil
    intro kt hm
    exact ht kt ((sequentialDrain_spec st.transcriptBuffer
      st.lastProcessedSequence hkc hnk).2.1.subset hm)
  refine ⟨hempty, ?_⟩
  intro k hk
  have hmem := reduceBatch_mem force now st hkc hnk k
  have hrem : (reduceRemaining force now st).map Prod.fst = [] := by
    have heq : reduceRemaining force now st =
        (processBufferedTranscripts force now st).transcriptBuffer := by
      rw [processBufferedTranscripts_eq]
    rw [heq, hempty, List.map_nil]
  rw [hrem] at hmem
  have hkB : k ∈ (reduceBatch force now st).map (·.sequence_id) := by
    rcases hmem.mpr hk with h | h
    · exact h
    · simp at h
  have hlen : (reduceBatch force now st).length > 0 := by
    cases hb : reduceBatch force now st with
    | nil => rw [hb] at hkB; simp at hkB
    | cons x xs => simp
  rw [processBufferedTranscripts_eq]
  simp only [outIds]
  rw [if_pos hlen]
  exact (mergeTranscripts_ids_mem _ _ _).mpr (Or.inr hkB)

/-- Witness for `reduction_empties_buffer`: one buffered out-of-order segment
(id 2, so the sequential drain cannot take it) is emitted by the non-forced
pass and the buffer is empty. -/
theorem reduction_empties_buffer_witness :
    (processBufferedTranscripts false 5
      (runReconciler [ReconcilerEvent.arrival 0 (samplePayload 2 20)])).transcriptBuffer
        = [] ∧
    ∀ k ∈ bufKeys (runReconciler [ReconcilerEvent.arrival 0 (samplePayload 2 20)]),
      k ∈ outIds (processBufferedTranscripts false 5
        (runReconciler [ReconcilerEvent.arrival 0 (samplePayload 2 20)])) :=
  reduction_empties_buffer false 5 _ (by decide) (by decide) (by decide)

/-- C6 amended: when saving is requested and the drain loop declared
completion, the Persisting step follows the ForcedFlush step in the action
trace, carrying the post-flush transcript state together with the meeting
name and folder path; given the reconciler invariants, the persisted
transcript is fully ordered and deduplicated; and the session is considered
durably closed exactly when the persistence call succeeds with a meeting id —
a thrown call or a response without a `meeting_id` surfaces an error instead
and does not close the session. -/
theorem persist_follows_forced_flush (eventArr : Nat → Bool)
    (status : Nat → Option TranscriptionStatus) (flushNow : Nat)
    (rst : ReconcilerState) (mName fPath : Option String)
    (hc : (drainLoop eventArr status).2 = true) (hg : goodRecon rst) :
    (handleRecordingStop2 true eventArr status flushNow rst mName fPath).1 =
      [StopAction.graceWait 4000, StopAction.forcedFlush,
        StopAction.persist mName fPath
          (processBufferedTranscripts true flushNow rst).transcripts] ∧
    (handleRecordingStop2 true eventArr status flushNow rst mName fPath).2 =
      processBufferedTranscripts true flushNow rst ∧
    (processBufferedTranscripts true flushNow rst).transcripts.Sorted transcriptLe ∧
    (outIds (processBufferedTranscripts true flushNow rst)).Nodup ∧
    (∀ (resp : Except Unit (Option Nat)) (mid : Nat),
      persistTranscriptCall resp = PersistOutcome.saved mid ↔
        resp = Except.ok (some mid)) := by
  have hpg := process_goodRecon true flushNow rst hg
  cases hloop : drainLoop eventArr status with
  | mk e t =>
    rw [hloop] at hc
    simp only at hc
    subst hc
    refine ⟨?_, ?_, hpg.1, hpg.2.1, ?_⟩
    · simp [handleRecordingStop2, hloop]
    · simp [handleRecordingStop2, hloop]
    · intro resp mid
      cases resp with
      | error u => simp [persistTranscriptCall]
      | ok o => cases o <;> simp [persistTranscriptCall]

/-- Witness for `persist_follows_forced_flush`: the completion event fires at
the first guard, so the loop completes with `elapsedTime = 0`; a persistence
response carrying meeting id 7 closes the session, a thrown call does not. -/
theorem persist_follows_forced_flush_witness :
    (handleRecordingStop2 true (fun _ => true) (fun _ => none) 0
        initialReconcilerState none none).1 =
      [StopAction.graceWait 4000, StopAction.forcedFlush,
        StopAction.persist none none
          (processBufferedTranscripts true 0 initialReconcilerState).transcripts] ∧
    (handleRecordingStop2 true (fun _ => true) (fun _ => none) 0
        initialReconcilerState none none).2 =
      processBufferedTranscripts true 0 initialReconcilerState ∧
    (processBufferedTranscripts true 0 initialReconcilerState).transcripts.Sorted
      transcriptLe ∧
    (outIds (processBufferedTranscripts true 0 initialReconcilerState)).Nodup ∧
    persistTranscriptCall (Except.ok (some 7)) = PersistOutcome.saved 7 ∧
    persistTranscriptCall (Except.error ()) = PersistOutcome.failed := by
  obtain ⟨w1, w2, w3, w4, w5⟩ := persist_follows_forced_flush (fun _ => true)
    (fun _ => none) 0 initialReconcilerState none none (by decide) initial_goodRecon
  exact ⟨w1, w2, w3, w4, (w5 (Except.ok (some 7)) 7).mpr rfl, rfl⟩

end MeetingMinutes
